import Mathlib

/-!
Verification of memory-qdrant-mcp against its specification.

Shallow embedding of the TypeScript/JavaScript sources:
  * server/embeddings/providerBase (error categorization, retry, chunking,
    preprocessing),
  * src/cache.ts (LRU cache, cache keys, cache utilities),
  * memory tool functions (structured-context patching, knowledge-link
    direction filtering, batch querying).

Strings are modelled by Lean `String`; JavaScript `String.prototype.includes`
is modelled by an executable substring test on the underlying character
lists.  Machine integers of the source are small positive quantities
(lengths, indices, delays, timestamps), modelled by `Nat`.  `Date.now()` is
modelled by an explicit `now : Nat` parameter.  Asynchronous fallible calls
are modelled by an explicit result type `Res`.
-/

set_option autoImplicit false

namespace MemoryQdrant

/-- Result of a fallible (JS `async`/`throw`) computation: success or a
thrown error message. -/
inductive Res (α : Type) where
  | ok (v : α)
  | err (e : String)
deriving Repr, DecidableEq

/-- The `strStartsWith needle hay`: the character list `hay` starts with
`needle`. -/
def strStartsWith : List Char → List Char → Bool
  | [], _ => true
  | _ :: _, [] => false
  | a :: as, b :: bs => a == b && strStartsWith as bs

/-- Auxiliary scan for substring containment over character lists. -/
def strContainsAux (needle : List Char) : List Char → Bool
  | [] => needle.isEmpty
  | c :: t => strStartsWith needle (c :: t) || strContainsAux needle t

/-- Model of JavaScript `s.includes(sub)` on character lists. -/
def includesL (hay needle : List Char) : Bool :=
  strContainsAux needle hay

/-- ASCII lowercase of one character; models `toLowerCase` on the ASCII
range, which covers every keyword the source compares against. -/
def asciiLower (c : Char) : Char :=
  if 65 ≤ c.toNat ∧ c.toNat ≤ 90 then Char.ofNat (c.toNat + 32) else c

/-- Character list of a string, lowercased (model of
`message.toLowerCase()`). -/
def lowerData (s : String) : List Char :=
  s.data.map asciiLower

/-- Error categories from `types.ts` (`ErrorCategory`). -/
inductive ErrorCategory where
  | AUTHENTICATION_ERROR
  | QUOTA_ERROR
  | NETWORK_ERROR
  | RATE_LIMIT
  | UNKNOWN_ERROR
deriving Repr, DecidableEq

/-- Retry configuration from `types.ts` (`RetryConfig`); delays in
milliseconds. -/
structure RetryConfig where
  maxRetries : Nat
  baseDelay : Nat
  maxDelay : Nat
  backoffFactor : Nat
deriving Repr, DecidableEq

/-- The concrete `RETRY_CONFIG` of `providerBase.ts`. -/
def RETRY_CONFIG : RetryConfig :=
  { maxRetries := 3, baseDelay := 1000, maxDelay := 5000, backoffFactor := 2 }

/-- The `categorizeGeminiError` from `providerBase.ts` lines 22-39, as a function
of the error's message.  The source lowercases the message and tests keyword
families in order. -/
def categorizeGeminiError (message : String) : ErrorCategory :=
  let errorMessage := lowerData message
  if includesL errorMessage (String.data "api key") ||
      includesL errorMessage (String.data "authentication") ||
      includesL errorMessage (String.data "unauthorized") then
    ErrorCategory.AUTHENTICATION_ERROR
  else if includesL errorMessage (String.data "quota") ||
      includesL errorMessage (String.data "limit") ||
      includesL errorMessage (String.data "exceeded") then
    ErrorCategory.QUOTA_ERROR
  else if includesL errorMessage (String.data "timeout") ||
      includesL errorMessage (String.data "network") ||
      includesL errorMessage (String.data "fetch") then
    ErrorCategory.NETWORK_ERROR
  else if includesL errorMessage (String.data "rate limit") ||
      includesL errorMessage (String.data "too many requests") then
    ErrorCategory.RATE_LIMIT
  else
    ErrorCategory.UNKNOWN_ERROR

/-- An error message is retryable when its category is neither
`AUTHENTICATION_ERROR` nor `QUOTA_ERROR` (the non-retry condition of
`withRetry`, line 53). -/
def retryable (message : String) : Bool :=
  !(categorizeGeminiError message == ErrorCategory.AUTHENTICATION_ERROR ||
    categorizeGeminiError message == ErrorCategory.QUOTA_ERROR)

/-- The delay computed by `withRetry` before the retry following failed
attempt number `attempt` (lines 58-61). -/
def retryDelay (cfg : RetryConfig) (attempt : Nat) : Nat :=
  min (cfg.baseDelay * cfg.backoffFactor ^ attempt) cfg.maxDelay

/-- Observable trace of one `withRetry` run: the final result, the list of
back-off delays slept, and how many times the operation was invoked. -/
structure RetryTrace (α : Type) where
  result : Res α
  delays : List Nat
  attempts : Nat
deriving Repr, DecidableEq

/-- Loop body of `withRetry` (`providerBase.ts` lines 42-69).  The JS
`for (let attempt = 0; attempt <= maxRetries; attempt++)` loop is modelled
with `fuel` remaining iterations (`withRetry` enters with
`maxRetries + 1`); running out of fuel corresponds to falling through the
loop to the final `throw lastError`.  The operation is modelled as a
function from the attempt number to its outcome. -/
def withRetryGo {α : Type} (op : Nat → Res α) (cfg : RetryConfig)
    (lastError : Option String) : Nat → Nat → RetryTrace α
  | 0, _ => ⟨Res.err (lastError.getD ""), [], 0⟩
  | fuel + 1, attempt =>
    match op attempt with
    | Res.ok v => ⟨Res.ok v, [], 1⟩
    | Res.err e =>
      let errorCategory := categorizeGeminiError e
      if errorCategory = ErrorCategory.AUTHENTICATION_ERROR ∨
          errorCategory = ErrorCategory.QUOTA_ERROR ∨ attempt = cfg.maxRetries then
        ⟨Res.err e, [], 1⟩
      else
        let r := withRetryGo op cfg (some e) fuel (attempt + 1)
        ⟨r.result, retryDelay cfg attempt :: r.delays, r.attempts + 1⟩

/-- The `withRetry` from `providerBase.ts`: run the loop from attempt `0` with
`maxRetries + 1` available iterations. -/
def withRetry {α : Type} (op : Nat → Res α) (cfg : RetryConfig) : RetryTrace α :=
  withRetryGo op cfg none (cfg.maxRetries + 1) 0

/-! ## Text chunking and preprocessing (`constants.ts`, `providerBase.ts`) -/

/-- The `MAX_CHUNK_SIZE` from `constants.ts`: characters per chunk. -/
def MAX_CHUNK_SIZE : Nat := 1500

/-- The `CHUNK_OVERLAP` from `constants.ts`: characters of overlap between
chunks. -/
def CHUNK_OVERLAP : Nat := 200

/-- The `MAX_CHUNKS_PER_TEXT` from `constants.ts`: maximum number of chunks. -/
def MAX_CHUNKS_PER_TEXT : Nat := 10

/-- The `MAX_TEXT_LENGTH_FOR_EMBEDDING` from `constants.ts`: characters before
chunking/summarization kicks in. -/
def MAX_TEXT_LENGTH_FOR_EMBEDDING : Nat := 5000

/-- Model of the JavaScript regex `/\s/` on the ASCII range (space, tab,
newline, carriage return, vertical tab, form feed). -/
def isWS (c : Char) : Bool :=
  c == ' ' || c == '\t' || c == '\n' || c == '\r' || c.toNat == 11 || c.toNat == 12

/-- Character access `text[i]`; all accesses made by the source are in
range, so the default is irrelevant. -/
def getC (text : List Char) (i : Nat) : Char :=
  text.getD i ' '

/-- The sentence-ending test of `chunkText` at index `i`: a `.`, `!` or `?`
followed by end of text or a whitespace character. -/
def sentenceEnd (text : List Char) (i : Nat) : Bool :=
  (getC text i == '.' || getC text i == '!' || getC text i == '?') &&
    (decide (i + 1 ≥ text.length) || isWS (getC text (i + 1)))

/-- Downward scan `for (let i = hi; i >= lo; i--)` returning the first index
(from above) satisfying `p`. -/
def scanDown (p : Nat → Bool) (lo : Nat) : Nat → Option Nat
  | 0 => if 0 < lo then none else if p 0 then some 0 else none
  | i + 1 =>
    if i + 1 < lo then none
    else if p (i + 1) then some (i + 1) else scanDown p lo i

/-- The break-point search of `chunkText` (lines 116-142), for the case
`end < text.length`: look for a sentence ending in the last 200 characters,
then (if the break point is still `end`) for any whitespace. -/
def findBreakPoint (text : List Char) (start endPos : Nat) : Nat :=
  let searchStart := max start (endPos - 200)
  let bp1 :=
    match scanDown (sentenceEnd text) searchStart (endPos - 1) with
    | some i => i + 1
    | none => endPos
  if bp1 == endPos then
    match scanDown (fun i => isWS (getC text i)) searchStart (endPos - 1) with
    | some i => i
    | none => bp1
  else bp1

/-- The value of `end` after the break-point adjustment in one iteration of
the `chunkText` loop starting at `start`. -/
def chunkEndPos (text : List Char) (start : Nat) : Nat :=
  if start + MAX_CHUNK_SIZE < text.length then
    findBreakPoint text start (start + MAX_CHUNK_SIZE)
  else start + MAX_CHUNK_SIZE

/-- JavaScript `String.prototype.trim` on the modelled whitespace set. -/
def trimWS (l : List Char) : List Char :=
  ((l.dropWhile isWS).reverse.dropWhile isWS).reverse

/-- The updated `start` of one `chunkText` iteration:
`start = Math.max(start + 1, end - CHUNK_OVERLAP)` (line 150). -/
def chunkNextStart (text : List Char) (start : Nat) : Nat :=
  max (start + 1) (chunkEndPos text start - CHUNK_OVERLAP)

/-- The `while` loop of `chunkText` (lines 112-151). -/
def chunkLoop (text : List Char) (start : Nat) (chunks : List (List Char)) :
    List (List Char) :=
  if _h : start < text.length ∧ chunks.length < MAX_CHUNKS_PER_TEXT then
    let chunk := trimWS ((text.take (chunkEndPos text start)).drop start)
    let chunks' := if chunk.length > 0 then chunks ++ [chunk] else chunks
    chunkLoop text (chunkNextStart text start) chunks'
  else chunks
termination_by text.length - start
decreasing_by
  have hm := Nat.le_max_left (start + 1) (chunkEndPos text start - CHUNK_OVERLAP)
  simp only [chunkNextStart]
  omega

/-- The `chunkText` from `providerBase.ts`. -/
def chunkText (text : List Char) : List (List Char) :=
  chunkLoop text 0 []

/-- Outcome of `preprocessText`: the unmodified text (short input), the
chunk list, or a marker that `summarizeForEmbedding` was called on the whole
text (its network result lies outside the model). -/
inductive PreprocessResult where
  | original (text : List Char)
  | chunked (chunks : List (List Char))
  | summarized (text : List Char)
deriving Repr, DecidableEq

/-- The `preprocessText` from `providerBase.ts` lines 94-105. -/
def preprocessText (text : List Char) : PreprocessResult :=
  if text.length > MAX_TEXT_LENGTH_FOR_EMBEDDING then
    let chunks := chunkText text
    if chunks.length > 0 ∧ chunks.length ≤ MAX_CHUNKS_PER_TEXT then
      PreprocessResult.chunked chunks
    else
      PreprocessResult.summarized text
  else PreprocessResult.original text

/-! ## LRU cache (`src/cache.ts`)

The JavaScript `Map` is insertion-ordered; it is modelled by a list of
key/item pairs in insertion order (keys are unique because the source
always deletes a key before re-inserting it).  `Date.now()` is an explicit
`now : Nat` parameter. -/

/-- The `CacheItem` from `types.ts`. -/
structure CacheItem (T : Type) where
  value : T
  expiry : Nat
deriving Repr, DecidableEq

/-- The `LRUCache` class: capacity plus the insertion-ordered map. -/
structure LRUCache (T : Type) where
  maxSize : Nat
  cache : List (String × CacheItem T)
deriving Repr, DecidableEq

/-- The `Map.prototype.has`. -/
def mapHas {T : Type} (m : List (String × CacheItem T)) (k : String) : Bool :=
  m.any (fun p => p.1 == k)

/-- The `Map.prototype.get` (first — and only — entry with the key). -/
def mapFind {T : Type} (m : List (String × CacheItem T)) (k : String) :
    Option (CacheItem T) :=
  (m.find? (fun p => p.1 == k)).map Prod.snd

/-- The `Map.prototype.delete`. -/
def mapErase {T : Type} (m : List (String × CacheItem T)) (k : String) :
    List (String × CacheItem T) :=
  m.filter (fun p => !(p.1 == k))

/-- The `LRUCache.get` (cache.ts lines 16-24): on a hit, delete the entry and
re-insert it at the end (most recently used); expiry is not consulted. -/
def LRUCache.get {T : Type} (c : LRUCache T) (key : String) :
    Option T × LRUCache T :=
  match mapFind c.cache key with
  | none => (none, c)
  | some item =>
    (some item.value, { c with cache := mapErase c.cache key ++ [(key, item)] })

/-- The `LRUCache.set` (cache.ts lines 26-41): delete an existing entry, else
evict the first (least recently used) key when full; then append the new
item with `expiry = Date.now() + ttl`. -/
def LRUCache.set {T : Type} (c : LRUCache T) (now : Nat) (key : String)
    (value : T) (ttl : Nat) : LRUCache T :=
  let cache1 :=
    if mapHas c.cache key then mapErase c.cache key
    else if c.cache.length ≥ c.maxSize then
      match c.cache with
      | [] => []
      | _ :: rest => rest
    else c.cache
  { c with cache := cache1 ++ [(key, ⟨value, now + ttl⟩)] }

/-- The `LRUCache.has` (cache.ts lines 43-53): a present entry whose expiry has
passed (`Date.now() > item.expiry`) is deleted and reported absent. -/
def LRUCache.hasK {T : Type} (c : LRUCache T) (now : Nat) (key : String) :
    Bool × LRUCache T :=
  match mapFind c.cache key with
  | none => (false, c)
  | some item =>
    if now > item.expiry then (false, { c with cache := mapErase c.cache key })
    else (true, c)

/-- The `cacheUtils.getCached` (cache.ts lines 107-110): consult `has` (which
may delete an expired entry), then `get`. -/
def getCached {T : Type} (c : LRUCache T) (now : Nat) (key : String) :
    Option T × LRUCache T :=
  let hc := LRUCache.hasK c now key
  if hc.1 then LRUCache.get hc.2 key else (none, hc.2)

/-- Substring test on strings (JavaScript `String.prototype.includes`). -/
def includesStr (s sub : String) : Bool :=
  includesL s.data sub.data

/-- The `s.slice(0, n)` on strings. -/
def strTake (s : String) (n : Nat) : String :=
  String.mk (s.data.take n)

/-- The `cacheKeys.embedding` from cache.ts. -/
def cacheKeys.embedding (text : String) : String :=
  "embed:" ++ toString text.length ++ ":" ++ strTake text 50

/-- The `cacheKeys.query` from cache.ts. -/
def cacheKeys.query (projectName queryText : String) (memoryType : Option String)
    (topK : Nat) : String :=
  "query:" ++ projectName ++ ":" ++ strTake queryText 50 ++ ":" ++
    (memoryType.getD "all") ++ ":" ++ toString topK

/-- The `cacheKeys.structuredContext` from cache.ts. -/
def cacheKeys.structuredContext (projectName contextType : String) : String :=
  "context:" ++ projectName ++ ":" ++ contextType

/-- The `cacheKeys.systemPatterns` from cache.ts. -/
def cacheKeys.systemPatterns (projectName : String) : String :=
  "patterns:" ++ projectName

/-- The `cacheKeys.decisions` from cache.ts. -/
def cacheKeys.decisions (projectName : String) (limit : Nat) : String :=
  "decisions:" ++ projectName ++ ":" ++ toString limit

/-- The four global cache instances of cache.ts. -/
structure CacheState (E Q C P : Type) where
  embeddingCache : LRUCache E
  queryCache : LRUCache Q
  contextCache : LRUCache C
  patternCache : LRUCache P
deriving Repr, DecidableEq

/-- One cache's pass of `cacheUtils.invalidateProjectCache`: delete every
key that contains the substring `: projectName :`. -/
def invalidateKeys {T : Type} (m : List (String × CacheItem T))
    (projectName : String) : List (String × CacheItem T) :=
  m.filter (fun p => !(includesStr p.1 (":" ++ projectName ++ ":")))

/-- The `cacheUtils.invalidateProjectCache` (cache.ts lines 122-133): applied to
`queryCache`, `contextCache` and `patternCache`; the embedding cache is not
in the list. -/
def cacheUtils.invalidateProjectCache {E Q C P : Type} (st : CacheState E Q C P)
    (projectName : String) : CacheState E Q C P :=
  { st with
    queryCache :=
      { st.queryCache with cache := invalidateKeys st.queryCache.cache projectName },
    contextCache :=
      { st.contextCache with cache := invalidateKeys st.contextCache.cache projectName },
    patternCache :=
      { st.patternCache with cache := invalidateKeys st.patternCache.cache projectName } }

/-! ## Structured-context patching (`updateStructuredContext`)

JSON object values are modelled by a small value type; JavaScript objects
are modelled by insertion-ordered association lists, with `{...a, ...b}`
spread semantics (an existing key is overwritten in place, a new key is
appended). -/

/-- JSON-ish values appearing in structured contexts. -/
inductive JVal where
  | s (v : String)
  | n (v : Int)
  | b (v : Bool)
deriving Repr, DecidableEq

/-- The reserved delete sentinel `"__DELETE__"`. -/
def DELETE_SENTINEL : JVal := JVal.s "__DELETE__"

/-- Insertion-ordered JavaScript object. -/
abbrev ObjMap : Type := List (String × JVal)

/-- Object property read `o[k]`. -/
def objGet (o : ObjMap) (k : String) : Option JVal :=
  (o.find? (fun p => p.1 == k)).map Prod.snd

/-- Object property write `o[k] = v` under spread semantics: overwrite in
place when the key exists, append otherwise. -/
def objSet (o : ObjMap) (k : String) (v : JVal) : ObjMap :=
  if o.any (fun p => p.1 == k) then
    o.map (fun p => if p.1 == k then (k, v) else p)
  else o ++ [(k, v)]

/-- The `delete o[k]`. -/
def objDelete (o : ObjMap) (k : String) : ObjMap :=
  o.filter (fun p => !(p.1 == k))

/-- The shallow merge `{...currentContext, ...patchContent}` (line 529). -/
def shallowMerge (cur patch : ObjMap) : ObjMap :=
  patch.foldl (fun acc kv => objSet acc kv.1 kv.2) cur

/-- The delete pass (lines 532-536): for each patch key whose value is the
sentinel, delete that key from the merged object. -/
def applyDeletes (merged patch : ObjMap) : ObjMap :=
  patch.foldl
    (fun acc kv => if kv.2 == DELETE_SENTINEL then objDelete acc kv.1 else acc)
    merged

/-- The new context value computed by `updateStructuredContext`. -/
def applyPatch (cur patch : ObjMap) : ObjMap :=
  applyDeletes (shallowMerge cur patch) patch

/-- A `contextHistory` entry (the fields of the object built at lines
542-549 that the model tracks). -/
structure HistoryEntry where
  previousVersion : ObjMap
  newVersion : ObjMap
  changes : ObjMap
deriving Repr, DecidableEq

/-- The state touched by `updateStructuredContext`: the current structured
context value and the list of logged history entries. -/
structure ContextState where
  context : ObjMap
  history : List HistoryEntry
deriving Repr, DecidableEq

/-- The `updateStructuredContext` (part_014 lines 520-558) as a state
transformer: merge the patch, apply the delete sentinel, store the result,
and append exactly one history entry `{previous, new, patch}`. -/
def updateStructuredContext (st : ContextState) (patchContent : ObjMap) :
    ContextState :=
  let updatedContext := applyPatch st.context patchContent
  { context := updatedContext,
    history := st.history ++ [⟨st.context, updatedContext, patchContent⟩] }

/-! ## Knowledge-link direction filtering (`getKnowledgeLinks`) -/

/-- The `LinkDirection` from `types.ts`. -/
inductive LinkDirection where
  | incoming
  | outgoing
  | both
deriving Repr, DecidableEq

/-- A fetched knowledge-link hit (the payload fields the filter reads). -/
structure KnowledgeLinkHit where
  id : String
  sourceId : String
  targetId : String
deriving Repr, DecidableEq

/-- The client-side predicate of `getKnowledgeLinks` (part_014 lines
701-710). -/
def directionFilterKeep (entityId : String) (direction : LinkDirection)
    (hit : KnowledgeLinkHit) : Bool :=
  if (direction = LinkDirection.outgoing ∨ direction = LinkDirection.both) ∧
      hit.sourceId = entityId then true
  else if (direction = LinkDirection.incoming ∨ direction = LinkDirection.both) ∧
      hit.targetId = entityId then true
  else false

/-- The direction-filtering step of `getKnowledgeLinks`, applied to the
fetched candidate set. -/
def getKnowledgeLinksFilter (allLinks : List KnowledgeLinkHit)
    (entityId : String) (direction : LinkDirection) : List KnowledgeLinkHit :=
  allLinks.filter (directionFilterKeep entityId direction)

/-! ## Batch query (`batchQueryMemory`) -/

/-- The `Promise.all` over fallible per-query searches: first rejection rejects
the whole batch, otherwise results are returned in input order. -/
def mapRes {β γ : Type} (f : β → Res γ) : List β → Res (List γ)
  | [] => Res.ok []
  | b :: bs =>
    match f b with
    | Res.err e => Res.err e
    | Res.ok c =>
      match mapRes f bs with
      | Res.err e => Res.err e
      | Res.ok cs => Res.ok (c :: cs)

/-- The `batchQueryMemory` (part_014 lines 817-855), parameterized by the store:
`init` models `initMemoryBank` (returns the collection name or throws) and
`search` models one per-query search.  An empty query list throws before the
`try`; any store failure inside the `try` is caught and mapped to one empty
result list per query. -/
def batchQueryMemory {Q R : Type} (init : Res String)
    (search : String → Q → Res (List R)) (queries : List Q) :
    Res (List (List R)) :=
  if queries.length = 0 then Res.err "Queries must be a non-empty array"
  else
    match init with
    | Res.err _ => Res.ok (queries.map (fun _ => []))
    | Res.ok collectionName =>
      match mapRes (search collectionName) queries with
      | Res.err _ => Res.ok (queries.map (fun _ => []))
      | Res.ok resultLists => Res.ok resultLists

/-! ## Concrete fixtures used by witnesses and counterexamples -/

/-- An operation that always fails with a quota error. -/
def opQuota : Nat → Res Nat := fun _ => Res.err "quota exceeded"

/-- An operation that fails with a network timeout three times, then
succeeds. -/
def opNet : Nat → Res Nat :=
  fun i => if i < 3 then Res.err "network timeout" else Res.ok 42

/-- An operation that always fails with a network timeout. -/
def opAllFail : Nat → Res Nat := fun _ => Res.err "network timeout"

/-- A knowledge link from entity `A` to entity `B`. -/
def linkAB : KnowledgeLinkHit := ⟨"id1", "A", "B"⟩

/-- A cache state holding one entry per cache for project `alpha`. -/
def cacheStateFix : CacheState Nat Nat Nat Nat :=
  ⟨⟨100, [(cacheKeys.embedding "hello", ⟨1, 99⟩)]⟩,
   ⟨100, [(cacheKeys.query "alpha" "q" none 5, ⟨2, 99⟩)]⟩,
   ⟨100, [(cacheKeys.structuredContext "alpha" "productContext", ⟨3, 99⟩)]⟩,
   ⟨50, [(cacheKeys.systemPatterns "alpha", ⟨4, 99⟩)]⟩⟩

/-- Repeatedly `set` a list of key/value pairs (used to fill an LRU
cache). -/
def setAll {T : Type} (c : LRUCache T) (now ttl : Nat)
    (kvs : List (String × T)) : LRUCache T :=
  kvs.foldl (fun acc kv => acc.set now kv.1 kv.2 ttl) c

/-- A full capacity-2 cache holding `a` then `b` (insertion = recency
order). -/
def lruAB : LRUCache Nat := ⟨2, [("a", ⟨1, 1000⟩), ("b", ⟨2, 1000⟩)]⟩

/-- Structured-context patch chain: `{}` patched with `{a: 1}`. -/
def ctxState1 : ContextState := updateStructuredContext ⟨[], []⟩ [("a", JVal.n 1)]

/-- State after further patching with `{b: 2}`. -/
def ctxState2 : ContextState := updateStructuredContext ctxState1 [("b", JVal.n 2)]

/-- State after further patching with `{a: "__DELETE__"}`. -/
def ctxState3 : ContextState :=
  updateStructuredContext ctxState2 [("a", JVal.s "__DELETE__")]

/-! ## Helper lemmas -/

/-- The chunk accumulator never exceeds `MAX_CHUNKS_PER_TEXT`: the loop
guard re-checks the count before every push. -/
theorem chunkLoop_length_le (text : List Char) (start : Nat)
    (chunks : List (List Char)) (h : chunks.length ≤ MAX_CHUNKS_PER_TEXT) :
    (chunkLoop text start chunks).length ≤ MAX_CHUNKS_PER_TEXT := by
  rw [chunkLoop]
  split
  · next hcond =>
    apply chunkLoop_length_le
    split
    · next _ =>
      simp only [List.length_append, List.length_cons, List.length_nil]
      omega
    · exact h
  · exact h
termination_by text.length - start
decreasing_by
  have hm := Nat.le_max_left (start + 1) (chunkEndPos text start - CHUNK_OVERLAP)
  simp only [chunkNextStart]
  omega

/-! ## Claims -/

/-- C1: the spec says a message containing "rate limit" or "too many
requests" is categorized `RATE_LIMIT`.  The code checks the quota family
(`quota`/`limit`/`exceeded`) first, and `"rate limit"` contains `"limit"`,
so such messages are categorized `QUOTA_ERROR` instead — the
`'rate limit'` keyword in the fourth check is unreachable.  Messages
containing only "too many requests", and messages with no keyword at all,
behave as specified. -/
theorem categorize_rate_limit_shadowed :
    categorizeGeminiError "rate limit" = ErrorCategory.QUOTA_ERROR ∧
    categorizeGeminiError "Rate limit reached" = ErrorCategory.QUOTA_ERROR ∧
    categorizeGeminiError "rate limit" ≠ ErrorCategory.RATE_LIMIT ∧
    categorizeGeminiError "too many requests" = ErrorCategory.RATE_LIMIT ∧
    categorizeGeminiError "something odd happened" = ErrorCategory.UNKNOWN_ERROR := by
  decide

/-- C10: `chunkText` terminates — every iteration advances the start
position by at least one character
(`start = Math.max(start + 1, end - CHUNK_OVERLAP)`), and the loop also
stops once `MAX_CHUNKS_PER_TEXT` chunks have been produced (the guard keeps
the chunk count at or below the cap). -/
theorem chunkText_progress_and_cap :
    (∀ text start, start + 1 ≤ chunkNextStart text start) ∧
    (∀ text, (chunkText text).length ≤ MAX_CHUNKS_PER_TEXT) := by
  constructor
  · intro text start
    exact Nat.le_max_left _ _
  · intro text
    exact chunkLoop_length_le text 0 [] (by decide)

/-- C3: the claim says that when chunking cannot consume the whole text
within `MAX_CHUNKS_PER_TEXT` chunks, `preprocessText` returns the summary.
In the code `chunkText` stops silently at the cap, so its output length
never exceeds `MAX_CHUNKS_PER_TEXT` and the `chunks.length ≤
MAX_CHUNKS_PER_TEXT` guard in `preprocessText` is always true: the
summarization branch is taken exactly when the text is oversized and
chunking produced no chunks at all (e.g. whitespace-only text), never
because text remained unconsumed at the cap. -/
theorem preprocessText_summarizes_iff_no_chunks :
    (∀ text, (chunkText text).length ≤ MAX_CHUNKS_PER_TEXT) ∧
    (∀ text, preprocessText text = PreprocessResult.summarized text ↔
      MAX_TEXT_LENGTH_FOR_EMBEDDING < text.length ∧ chunkText text = []) := by
  have hle : ∀ text, (chunkText text).length ≤ MAX_CHUNKS_PER_TEXT :=
    fun text => chunkLoop_length_le text 0 [] (by decide)
  refine ⟨hle, fun text => ?_⟩
  unfold preprocessText
  split
  · next hlen =>
    dsimp only
    split
    · next hcl =>
      constructor
      · intro h
        exact absurd h (by simp)
      · intro h
        rw [h.2] at hcl
        simp at hcl
    · next hcl =>
      have h0 : (chunkText text).length = 0 := by
        rcases Nat.lt_or_ge 0 (chunkText text).length with hpos | hz
        · exact absurd ⟨hpos, hle text⟩ hcl
        · omega
      simp [List.length_eq_zero.mp h0, hlen]
  · next hlen =>
    constructor
    · intro h
      exact absurd h (by simp)
    · intro h
      omega

/-- Shift a `range`-indexed map by one (used to line up retry delays). -/
theorem range_map_shift {β : Type} (f : Nat → β) (k : Nat) :
    (List.range (k + 1)).map f = f 0 :: (List.range k).map (fun i => f (i + 1)) := by
  rw [List.range_succ_eq_map, List.map_cons, List.map_map]
  rfl

/-- A retryable error yields neither of the two no-retry categories. -/
theorem retryable_not_auth_quota (m : String) (h : retryable m = true) :
    ¬(categorizeGeminiError m = ErrorCategory.AUTHENTICATION_ERROR ∨
      categorizeGeminiError m = ErrorCategory.QUOTA_ERROR) := by
  simp only [retryable, Bool.not_eq_true', Bool.or_eq_false_iff, beq_eq_false_iff_ne,
    ne_eq] at h
  rintro (hc | hc) <;> simp [hc] at h

/-- Delay list produced from attempt `attempt` on, shifted by one
attempt. -/
theorem retryDelays_shift (cfg : RetryConfig) (attempt k : Nat) :
    (List.range (k + 1)).map (fun i => retryDelay cfg (attempt + i)) =
      retryDelay cfg attempt ::
        (List.range k).map (fun i => retryDelay cfg (attempt + 1 + i)) := by
  rw [range_map_shift]
  refine congrArg₂ _ (by simp) (List.map_congr_left ?_)
  intro a _
  have h : attempt + (a + 1) = attempt + 1 + a := by omega
  simp [h]

/-- Run of `withRetryGo` from attempt `attempt`: `k` retryable failures
followed by a success return the success after `k + 1` attempts with
exactly the back-off delays. -/
theorem withRetryGo_ok {α : Type} (op : Nat → Res α) (em : Nat → String)
    (cfg : RetryConfig) (v : α) :
    ∀ (k attempt fuel : Nat) (last : Option String),
      attempt + fuel = cfg.maxRetries + 1 →
      (∀ i, i < k → op (attempt + i) = Res.err (em (attempt + i))) →
      (∀ i, i < k → retryable (em (attempt + i)) = true) →
      op (attempt + k) = Res.ok v →
      attempt + k ≤ cfg.maxRetries →
      withRetryGo op cfg last fuel attempt =
        ⟨Res.ok v, (List.range k).map (fun i => retryDelay cfg (attempt + i)),
          k + 1⟩ := by
  intro k
  induction k with
  | zero =>
    intro attempt fuel last hfuel hfail hretry hok hle
    obtain ⟨f, rfl⟩ : ∃ f, fuel = f + 1 := ⟨fuel - 1, by omega⟩
    have hok' : op attempt = Res.ok v := by simpa using hok
    simp [withRetryGo, hok']
  | succ k ih =>
    intro attempt fuel last hfuel hfail hretry hok hle
    obtain ⟨f, rfl⟩ : ∃ f, fuel = f + 1 := ⟨fuel - 1, by omega⟩
    have h0 : op attempt = Res.err (em attempt) := by simpa using hfail 0 (by omega)
    have hr0 : retryable (em attempt) = true := by simpa using hretry 0 (by omega)
    have hcond : ¬(categorizeGeminiError (em attempt) = ErrorCategory.AUTHENTICATION_ERROR ∨
        categorizeGeminiError (em attempt) = ErrorCategory.QUOTA_ERROR ∨
        attempt = cfg.maxRetries) := by
      have hnaq := retryable_not_auth_quota _ hr0
      rintro (hc | hc | hc)
      · exact hnaq (Or.inl hc)
      · exact hnaq (Or.inr hc)
      · omega
    have ih' := ih (attempt + 1) f (some (em attempt)) (by omega)
      (fun i hi => by
        have h := hfail (i + 1) (by omega)
        have e : attempt + (i + 1) = attempt + 1 + i := by omega
        rwa [e] at h)
      (fun i hi => by
        have h := hretry (i + 1) (by omega)
        have e : attempt + (i + 1) = attempt + 1 + i := by omega
        rwa [e] at h)
      (by
        have e : attempt + (k + 1) = attempt + 1 + k := by omega
        rwa [e] at hok)
      (by omega)
    simp only [withRetryGo, h0, if_neg hcond, ih', retryDelays_shift]

/-- Run of `withRetryGo` when every attempt up to `maxRetries` fails and
all failures before the last are retryable: the loop re-raises the last
attempt's error after `maxRetries - attempt + 1` attempts. -/
theorem withRetryGo_exhaust {α : Type} (op : Nat → Res α) (em : Nat → String)
    (cfg : RetryConfig) :
    ∀ (fuel attempt : Nat) (last : Option String),
      attempt + fuel = cfg.maxRetries + 1 →
      attempt ≤ cfg.maxRetries →
      (∀ i, attempt + i ≤ cfg.maxRetries → op (attempt + i) = Res.err (em (attempt + i))) →
      (∀ i, attempt + i < cfg.maxRetries → retryable (em (attempt + i)) = true) →
      withRetryGo op cfg last fuel attempt =
        ⟨Res.err (em cfg.maxRetries),
          (List.range (cfg.maxRetries - attempt)).map
            (fun i => retryDelay cfg (attempt + i)),
          cfg.maxRetries - attempt + 1⟩ := by
  intro fuel
  induction fuel with
  | zero =>
    intro attempt last hfuel hat hfail hretry
    omega
  | succ f ih =>
    intro attempt last hfuel hat hfail hretry
    have h0 : op attempt = Res.err (em attempt) := by simpa using hfail 0 (by omega)
    by_cases heq : attempt = cfg.maxRetries
    · subst heq
      simp [withRetryGo, h0, Nat.sub_self]
    · have hr0 : retryable (em attempt) = true := by simpa using hretry 0 (by omega)
      have hcond : ¬(categorizeGeminiError (em attempt) = ErrorCategory.AUTHENTICATION_ERROR ∨
          categorizeGeminiError (em attempt) = ErrorCategory.QUOTA_ERROR ∨
          attempt = cfg.maxRetries) := by
        have hnaq := retryable_not_auth_quota _ hr0
        rintro (hc | hc | hc)
        · exact hnaq (Or.inl hc)
        · exact hnaq (Or.inr hc)
        · exact heq hc
      have ih' := ih (attempt + 1) (some (em attempt)) (by omega) (by omega)
        (fun i hi => by
          have h := hfail (i + 1) (by omega)
          have e : attempt + (i + 1) = attempt + 1 + i := by omega
          rwa [e] at h)
        (fun i hi => by
          have h := hretry (i + 1) (by omega)
          have e : attempt + (i + 1) = attempt + 1 + i := by omega
          rwa [e] at h)
      have hk : cfg.maxRetries - attempt = (cfg.maxRetries - (attempt + 1)) + 1 := by
        omega
      simp only [withRetryGo, h0, if_neg hcond, ih', hk, retryDelays_shift]

/-- C2: `withRetry` attempts an operation whose first failure is
`AUTHENTICATION_ERROR` or `QUOTA_ERROR` exactly once, throwing with no
delay; a retryable failure streak of length `k ≤ maxRetries` followed by a
success makes `k + 1` attempts with delay
`min(baseDelay · backoffFactor^i, maxDelay)` before retry `i`; and when
every attempt fails (retryably before the last), budget exhaustion
re-raises the last attempt's error.  Failure messages are given by `em`,
per attempt number. -/
theorem withRetry_spec {α : Type} (op : Nat → Res α) (em : Nat → String)
    (cfg : RetryConfig) (v : α) (k : Nat) :
    (op 0 = Res.err (em 0) →
      (categorizeGeminiError (em 0) = ErrorCategory.AUTHENTICATION_ERROR ∨
        categorizeGeminiError (em 0) = ErrorCategory.QUOTA_ERROR) →
      withRetry op cfg = ⟨Res.err (em 0), [], 1⟩) ∧
    (k ≤ cfg.maxRetries →
      (∀ i, i < k → op i = Res.err (em i)) →
      (∀ i, i < k → retryable (em i) = true) →
      op k = Res.ok v →
      withRetry op cfg =
        ⟨Res.ok v, (List.range k).map (retryDelay cfg), k + 1⟩) ∧
    ((∀ i, i ≤ cfg.maxRetries → op i = Res.err (em i)) →
      (∀ i, i < cfg.maxRetries → retryable (em i) = true) →
      withRetry op cfg =
        ⟨Res.err (em cfg.maxRetries),
          (List.range cfg.maxRetries).map (retryDelay cfg),
          cfg.maxRetries + 1⟩) := by
  refine ⟨?_, ?_, ?_⟩
  · intro h0 hcat
    have hcond : categorizeGeminiError (em 0) = ErrorCategory.AUTHENTICATION_ERROR ∨
        categorizeGeminiError (em 0) = ErrorCategory.QUOTA_ERROR ∨
        0 = cfg.maxRetries := by tauto
    simp [withRetry, withRetryGo, h0, if_pos hcond]
  · intro hk hfail hretry hok
    have h := withRetryGo_ok op em cfg v k 0 (cfg.maxRetries + 1) none (by omega)
      (fun i hi => by simpa using hfail i hi)
      (fun i hi => by simpa using hretry i hi)
      (by simpa using hok) (by omega)
    simpa [withRetry] using h
  · intro hfail hretry
    have h := withRetryGo_exhaust op em cfg (cfg.maxRetries + 1) 0 none (by omega)
      (by omega)
      (fun i hi => by simpa using hfail i (by omega))
      (fun i hi => by simpa using hretry i (by omega))
    simpa [withRetry] using h

/-- Witness for C2 at the spec's own examples: a "quota exceeded" failure
is attempted exactly once with no delay; "network timeout" failing three
times then succeeding is attempted four times with delays 1000, 2000, 4000
(capped at 5000); all attempts failing re-raises the last error. -/
theorem withRetry_spec_witness :
    withRetry opQuota RETRY_CONFIG = ⟨Res.err "quota exceeded", [], 1⟩ ∧
    withRetry opNet RETRY_CONFIG = ⟨Res.ok 42, [1000, 2000, 4000], 4⟩ ∧
    withRetry opAllFail RETRY_CONFIG =
      ⟨Res.err "network timeout", [1000, 2000, 4000], 4⟩ := by
  refine ⟨?_, ?_, ?_⟩
  · exact (withRetry_spec opQuota (fun _ => "quota exceeded") RETRY_CONFIG 0 0).1
      rfl (by decide)
  · have h := (withRetry_spec opNet (fun _ => "network timeout") RETRY_CONFIG 42 3).2.1
      (by decide) (by decide) (by decide) (by decide)
    rw [h]
    decide
  · have h := (withRetry_spec opAllFail (fun _ => "network timeout") RETRY_CONFIG 0 0).2.2
      (by decide) (by decide)
    rw [h]
    decide

/-- Appending a fresh key makes `find?` return exactly the appended
entry. -/
theorem find_append_key_free {T : Type} (l : List (String × CacheItem T))
    (k : String) (item : CacheItem T) (h : ∀ p ∈ l, (p.1 == k) = false) :
    List.find? (fun p => p.1 == k) (l ++ [(k, item)]) = some (k, item) := by
  induction l with
  | nil => simp [List.find?]
  | cons a l ih =>
    have ha := h a (by simp)
    simp [List.find?, ha, ih (fun p hp => h p (by simp [hp]))]

/-- Every branch of `LRUCache.set` produces a key-free prefix before the
appended entry. -/
theorem set_cache_key_free {T : Type} (c : LRUCache T) (k : String) :
    ∀ p ∈ (if mapHas c.cache k then mapErase c.cache k
      else if c.cache.length ≥ c.maxSize then
        match c.cache with
        | [] => ([] : List (String × CacheItem T))
        | _ :: rest => rest
      else c.cache), (p.1 == k) = false := by
  intro p hp
  by_cases hhas : mapHas c.cache k
  · rw [if_pos hhas] at hp
    unfold mapErase at hp
    have := (List.mem_filter.mp hp).2
    simpa using this
  · rw [if_neg hhas] at hp
    have hmem : p ∈ c.cache := by
      rcases hcc : c.cache with _ | ⟨a, t⟩
      · rw [hcc] at hp
        by_cases hge : ([] : List (String × CacheItem T)).length ≥ c.maxSize
        · rw [if_pos hge] at hp
          exact absurd (hp : p ∈ ([] : List (String × CacheItem T))) (by simp)
        · rw [if_neg hge] at hp
          exact absurd hp (by simp)
      · rw [hcc] at hp
        by_cases hge : (a :: t).length ≥ c.maxSize
        · rw [if_pos hge] at hp
          exact List.mem_cons_of_mem a (hp : p ∈ t)
        · rw [if_neg hge] at hp
          exact hp
    cases hpk : (p.1 == k) with
    | false => rfl
    | true =>
      have hk : mapHas c.cache k = true := by
        unfold mapHas
        exact List.any_eq_true.mpr ⟨p, hmem, hpk⟩
      exact absurd hk hhas

/-- After any `set`, looking up the set key finds exactly the new item with
expiry `now + ttl`. -/
theorem set_find {T : Type} (c : LRUCache T) (now : Nat) (k : String) (v : T)
    (ttl : Nat) :
    mapFind (c.set now k v ttl).cache k = some ⟨v, now + ttl⟩ := by
  unfold LRUCache.set mapFind
  dsimp only
  rw [find_append_key_free _ _ _ (set_cache_key_free c k)]
  rfl

/-- The `set` with a fresh key on a cache below capacity appends the entry. -/
theorem set_fresh_notFull {T : Type} (c : LRUCache T) (now : Nat) (k : String)
    (v : T) (ttl : Nat) (hfresh : mapHas c.cache k = false)
    (hlen : c.cache.length < c.maxSize) :
    (c.set now k v ttl).cache = c.cache ++ [(k, ⟨v, now + ttl⟩)] := by
  unfold LRUCache.set
  dsimp only
  rw [if_neg (by simp [hfresh]), if_neg (by omega)]

/-- The `set` with a fresh key on a full cache drops exactly the first
(least-recently-used) entry and appends the new one. -/
theorem set_fresh_full {T : Type} (c : LRUCache T) (now : Nat) (k : String)
    (v : T) (ttl : Nat) (hfresh : mapHas c.cache k = false)
    (hfull : c.maxSize ≤ c.cache.length) :
    (c.set now k v ttl).cache = c.cache.tail ++ [(k, ⟨v, now + ttl⟩)] := by
  unfold LRUCache.set
  dsimp only
  rw [if_neg (by simp [hfresh]), if_pos (by omega)]
  rcases c with ⟨ms, _ | ⟨a, t⟩⟩ <;> rfl

/-- Filling an empty-enough cache with distinct fresh keys appends them in
order, capacity unchanged. -/
theorem setAll_fill {T : Type} :
    ∀ (kvs : List (String × T)) (c : LRUCache T) (now ttl : Nat),
      (kvs.map Prod.fst).Nodup →
      (∀ p ∈ kvs, mapHas c.cache p.1 = false) →
      c.cache.length + kvs.length ≤ c.maxSize →
      (setAll c now ttl kvs).cache =
        c.cache ++ kvs.map (fun kv => (kv.1, (⟨kv.2, now + ttl⟩ : CacheItem T))) ∧
      (setAll c now ttl kvs).maxSize = c.maxSize := by
  intro kvs
  induction kvs with
  | nil => intro c now ttl _ _ _; simp [setAll]
  | cons a kvs ih =>
    intro c now ttl hnd hfresh hlen
    have hlen' : c.cache.length < c.maxSize := by
      simp only [List.length_cons] at hlen
      omega
    have hstep : (c.set now a.1 a.2 ttl).cache = c.cache ++ [(a.1, ⟨a.2, now + ttl⟩)] :=
      set_fresh_notFull c now a.1 a.2 ttl (hfresh a (by simp)) hlen'
    have hmax : (c.set now a.1 a.2 ttl).maxSize = c.maxSize := rfl
    have hnotmem : a.1 ∉ kvs.map Prod.fst := (List.nodup_cons.mp (by simpa using hnd)).1
    have ih' := ih (c.set now a.1 a.2 ttl) now ttl
      (List.nodup_cons.mp (by simpa using hnd)).2
      (fun p hp => by
        have hp1 : mapHas c.cache p.1 = false := hfresh p (by simp [hp])
        have hne : (a.1 == p.1) = false := by
          have : a.1 ≠ p.1 := fun he => hnotmem (he ▸ List.mem_map_of_mem Prod.fst hp)
          simpa using this
        simp [mapHas, hstep, List.any_append] at hp1 ⊢
        exact ⟨hp1, by simpa using hne⟩)
      (by
        simp only [hstep, hmax, List.length_append, List.length_cons, List.length_nil]
        simp only [List.length_cons] at hlen
        omega)
    have hthis : (setAll c now ttl (a :: kvs)) = setAll (c.set now a.1 a.2 ttl) now ttl kvs := rfl
    rw [hthis, ih'.1, ih'.2, hstep, hmax]
    simp

/-- C5: LRU eviction — distinct fresh keys fill the cache in insertion
order; a `set` of a fresh key on a full cache evicts exactly the first
(least-recently-touched) entry, every other entry remaining; a `get` of a
present key moves exactly that entry to the most-recently-used end, which
changes which key a later overflow evicts. -/
theorem lru_eviction_spec {T : Type} (c : LRUCache T) (now ttl : Nat)
    (k : String) (v : T) (kvs : List (String × T)) :
    ((kvs.map Prod.fst).Nodup → kvs.length ≤ c.maxSize → c.cache = [] →
      (setAll c now ttl kvs).cache =
        kvs.map (fun kv => (kv.1, (⟨kv.2, now + ttl⟩ : CacheItem T)))) ∧
    (mapHas c.cache k = false → c.maxSize ≤ c.cache.length →
      (c.set now k v ttl).cache = c.cache.tail ++ [(k, ⟨v, now + ttl⟩)]) ∧
    (∀ item, mapFind c.cache k = some item →
      c.get k = (some item.value,
        { c with cache := mapErase c.cache k ++ [(k, item)] })) := by
  refine ⟨?_, ?_, ?_⟩
  · intro hnd hle hempty
    have h := (setAll_fill kvs c now ttl hnd
      (fun p _ => by simp [mapHas, hempty]) (by rw [hempty]; simpa using hle)).1
    rw [h, hempty]
    rfl
  · exact set_fresh_full c now k v ttl
  · intro item hfind
    unfold LRUCache.get
    rw [hfind]

/-- Witness for C5 on a capacity-2 cache: filling with `a`, `b` keeps
insertion order; a third key `c` evicts `a`; after an intervening
`get("a")` the entry order is `b`, `a`, so the same overflow evicts `b`
instead — the get changed the eviction victim. -/
theorem lru_eviction_spec_witness :
    (setAll (⟨2, []⟩ : LRUCache Nat) 0 1000 [("a", 1), ("b", 2)]).cache =
      [("a", ⟨1, 1000⟩), ("b", ⟨2, 1000⟩)] ∧
    (lruAB.set 0 "c" 3 1000).cache = [("b", ⟨2, 1000⟩), ("c", ⟨3, 1000⟩)] ∧
    lruAB.get "a" = (some 1, ⟨2, [("b", ⟨2, 1000⟩), ("a", ⟨1, 1000⟩)]⟩) ∧
    ((lruAB.get "a").2.set 0 "c" 3 1000).cache =
      [("a", ⟨1, 1000⟩), ("c", ⟨3, 1000⟩)] := by
  refine ⟨?_, ?_, ?_, ?_⟩
  · have h := (lru_eviction_spec (⟨2, []⟩ : LRUCache Nat) 0 1000 "x" 0
      [("a", 1), ("b", 2)]).1 (by decide) (by decide) rfl
    rw [h]
    decide
  · have h := (lru_eviction_spec lruAB 0 1000 "c" 3 []).2.1 (by decide) (by decide)
    rw [h]
    decide
  · have h := (lru_eviction_spec lruAB 0 1000 "a" 0 []).2.2 ⟨1, 1000⟩ (by decide)
    rw [h]
    decide
  · have hget := (lru_eviction_spec lruAB 0 1000 "a" 0 []).2.2 ⟨1, 1000⟩ (by decide)
    have h2 : (lruAB.get "a").2 = (⟨2, [("b", ⟨2, 1000⟩), ("a", ⟨1, 1000⟩)]⟩ : LRUCache Nat) := by
      rw [hget]
      decide
    have h := (lru_eviction_spec ((lruAB.get "a").2) 0 1000 "c" 3 []).2.1
      (by rw [h2]; decide) (by rw [h2]; decide)
    rw [h, h2]
    decide

/-- C6 counterexample: a value set with `ttl = 0` at time 1000 is still
reported PRESENT by `has` (and returned by `getCached`) on an access in the
same millisecond, because expiry uses a strict `Date.now() > expiry`
comparison — contradicting "absent on the very next access, regardless of
how much time has elapsed". -/
theorem ttl_zero_same_ms_present :
    (LRUCache.hasK ((⟨2, []⟩ : LRUCache Nat).set 1000 "k" 7 0) 1000 "k").1 = true ∧
    (getCached ((⟨2, []⟩ : LRUCache Nat).set 1000 "k" 7 0) 1000 "k").1 = some 7 := by
  decide

/-- C6 (amended): a value set with `ttl = 0` is reported absent by `has`
and by `getCached` on every access strictly later than the set time
(`Date.now()` at least 1 ms after). -/
theorem ttl_zero_absent_when_later {T : Type} (c : LRUCache T) (now t : Nat)
    (k : String) (v : T) (h : now < t) :
    (LRUCache.hasK (c.set now k v 0) t k).1 = false ∧
    (getCached (c.set now k v 0) t k).1 = none := by
  have hf : mapFind (c.set now k v 0).cache k = some ⟨v, now + 0⟩ :=
    set_find c now k v 0
  have hgt : t > now + 0 := by omega
  have hhas : (LRUCache.hasK (c.set now k v 0) t k).1 = false := by
    unfold LRUCache.hasK
    rw [hf]
    simp [h]
  exact ⟨hhas, by simp [getCached, hhas]⟩

/-- Witness for C6 (amended) at time `now = 1000`, access at `t = 1001`. -/
theorem ttl_zero_absent_when_later_witness :
    (LRUCache.hasK ((⟨2, []⟩ : LRUCache Nat).set 1000 "k" 7 0) 1001 "k").1 = false ∧
    (getCached ((⟨2, []⟩ : LRUCache Nat).set 1000 "k" 7 0) 1001 "k").1 = none :=
  ttl_zero_absent_when_later ⟨2, []⟩ 1000 1001 "k" 7 (by decide)

/-- C7: the invalidation filter only deletes keys containing
`":" + projectName + ":"`, but the system-patterns key is
`"patterns:" + projectName` with no trailing colon, so it survives a
project invalidation even though `patternCache` is in the list of caches to
clear and the key contains the project name; query and context keys (which
embed `:projectName:`) are removed, and the embedding cache is untouched. -/
theorem invalidateProjectCache_leaves_patterns_key :
    mapHas (cacheUtils.invalidateProjectCache cacheStateFix "alpha").patternCache.cache
      (cacheKeys.systemPatterns "alpha") = true ∧
    includesStr (cacheKeys.systemPatterns "alpha") "alpha" = true ∧
    (cacheUtils.invalidateProjectCache cacheStateFix "alpha").queryCache.cache = [] ∧
    (cacheUtils.invalidateProjectCache cacheStateFix "alpha").contextCache.cache = [] ∧
    (cacheUtils.invalidateProjectCache cacheStateFix "alpha").embeddingCache =
      cacheStateFix.embeddingCache := by
  decide

/-- Object lookup on a cons cell. -/
theorem objGet_cons (a : String × JVal) (o : ObjMap) (k : String) :
    objGet (a :: o) k = if a.1 == k then some a.2 else objGet o k := by
  by_cases h : a.1 == k <;> simp [objGet, List.find?, h]

/-- Replacing the value at key `k` leaves every other lookup unchanged. -/
theorem objGet_mapReplace (k kq : String) (v : JVal) (h : (k == kq) = false) :
    ∀ o : ObjMap,
      objGet (o.map (fun p => if p.1 == k then (k, v) else p)) kq = objGet o kq := by
  intro o
  induction o with
  | nil => rfl
  | cons a o ih =>
    by_cases ha : a.1 == k
    · have ha' : a.1 = k := eq_of_beq ha
      have hk1 : (a.1 == kq) = false := by rw [ha']; exact h
      simp only [List.map_cons, ha, if_pos, objGet_cons, hk1, h, ih]
      simp [h, hk1]
    · simp only [List.map_cons, ha, if_neg, objGet_cons, ih]
      simp [ha, ih]

/-- Replacing the value at a present key `k` makes lookup of `k` return the
new value. -/
theorem objGet_mapReplace_self (k : String) (v : JVal) :
    ∀ o : ObjMap, o.any (fun p => p.1 == k) = true →
      objGet (o.map (fun p => if p.1 == k then (k, v) else p)) k = some v := by
  intro o
  induction o with
  | nil => intro h; cases h
  | cons a o ih =>
    intro h
    rw [List.map_cons]
    by_cases ha : a.1 = k
    · have hhead : (if a.1 == k then (k, v) else a) = (k, v) := by simp [ha]
      rw [hhead, objGet_cons]
      simp
    · have h' : o.any (fun p => p.1 == k) = true := by
        simpa [List.any_cons, ha] using h
      have hhead : (if a.1 == k then (k, v) else a) = a := by simp [ha]
      rw [hhead, objGet_cons, if_neg (by simp [ha]), ih h']

/-- Pointwise description of `o[k] = v` under spread semantics. -/
theorem objGet_objSet (o : ObjMap) (k kq : String) (v : JVal) :
    objGet (objSet o k v) kq = if k == kq then some v else objGet o kq := by
  unfold objSet
  by_cases hany : o.any (fun p => p.1 == k)
  · rw [if_pos hany]
    cases hk : (k == kq) with
    | true =>
      have hk' : k = kq := eq_of_beq hk
      subst hk'
      rw [objGet_mapReplace_self k v o hany]
      simp
    | false =>
      rw [objGet_mapReplace k kq v hk o]
      simp [hk]
  · rw [if_neg hany]
    have hfree : ∀ p ∈ o, (p.1 == k) = false := by
      intro p hp
      cases hpk : (p.1 == k) with
      | false => rfl
      | true => exact absurd (List.any_eq_true.mpr ⟨p, hp, hpk⟩) hany
    cases hk : (k == kq) with
    | true =>
      have hk' : k = kq := eq_of_beq hk
      subst hk'
      have hnone : List.find? (fun p => p.1 == k) o = none :=
        List.find?_eq_none.mpr (fun p hp => by simp [hfree p hp])
      simp [objGet, List.find?_append, hnone, List.find?, hk]
    | false =>
      have hkq : k ≠ kq := by simpa using hk
      simp only [objGet, List.find?_append]
      cases hf : List.find? (fun p => p.1 == kq) o <;>
        simp [hf, List.find?, hk, hkq]

/-- Deleting key `j` empties lookup of `j` and leaves other lookups
unchanged. -/
theorem objGet_objDelete (j k : String) :
    ∀ o : ObjMap, objGet (objDelete o j) k =
      if j == k then none else objGet o k := by
  intro o
  induction o with
  | nil => simp [objDelete, objGet, List.find?]
  | cons a o ih =>
    unfold objDelete at ih ⊢
    by_cases haj : a.1 = j <;> by_cases hjk : j = k
    · subst hjk
      simp [List.filter_cons, haj, ih]
    · have hak : a.1 ≠ k := by rw [haj]; exact hjk
      simp [List.filter_cons, haj, ih, hjk, objGet_cons, hak]
    · subst hjk
      simp [List.filter_cons, haj, objGet_cons, ih]
    · simp [List.filter_cons, haj, objGet_cons, ih, hjk]

/-- Pointwise description of the shallow merge: a patch key wins, any other
key falls through to the current object (patch keys assumed unique, as
JavaScript object keys are). -/
theorem objGet_shallowMerge :
    ∀ (patch cur : ObjMap) (k : String), (patch.map Prod.fst).Nodup →
      objGet (shallowMerge cur patch) k =
        match objGet patch k with
        | some v => some v
        | none => objGet cur k := by
  intro patch
  induction patch with
  | nil => intro cur k _; simp [shallowMerge, objGet, List.find?]
  | cons p rest ih =>
    intro cur k hnd
    have hnd' : (rest.map Prod.fst).Nodup := (List.nodup_cons.mp (by simpa using hnd)).2
    have hnotmem : p.1 ∉ rest.map Prod.fst := (List.nodup_cons.mp (by simpa using hnd)).1
    have hstep : shallowMerge cur (p :: rest) = shallowMerge (objSet cur p.1 p.2) rest := rfl
    rw [hstep, ih (objSet cur p.1 p.2) k hnd']
    by_cases hp : p.1 == k
    · have hpe : p.1 = k := eq_of_beq hp
      have hrest : objGet rest k = none := by
        unfold objGet
        rw [List.find?_eq_none.mpr]
        · rfl
        · intro x hx hcontra
          have hxk : x.1 = k := eq_of_beq (by simpa using hcontra)
          apply hnotmem
          rw [hpe, ← hxk]
          exact List.mem_map_of_mem Prod.fst hx
      rw [hrest, objGet_cons]
      simp [hp, objGet_objSet]
    · rw [objGet_cons]
      cases hr : objGet rest k <;> simp [hp, hr, objGet_objSet]

/-- Pointwise description of the delete pass: a key is emptied exactly when
some patch entry carries the delete sentinel for it. -/
theorem objGet_applyDeletes :
    ∀ (patch m : ObjMap) (k : String),
      objGet (applyDeletes m patch) k =
        if patch.any (fun kv => kv.1 == k && kv.2 == DELETE_SENTINEL) then none
        else objGet m k := by
  intro patch
  induction patch with
  | nil => intro m k; simp [applyDeletes]
  | cons p rest ih =>
    intro m k
    have hstep : applyDeletes m (p :: rest) =
        applyDeletes (if p.2 == DELETE_SENTINEL then objDelete m p.1 else m) rest := rfl
    rw [hstep, ih]
    cases hd : (p.2 == DELETE_SENTINEL) with
    | true =>
      rw [if_pos rfl, objGet_objDelete]
      have hany : (p :: rest).any (fun kv => kv.1 == k && kv.2 == DELETE_SENTINEL) =
          ((p.1 == k) || rest.any (fun kv => kv.1 == k && kv.2 == DELETE_SENTINEL)) := by
        simp only [List.any_cons, hd, Bool.and_true]
      rw [hany]
      cases hk : (p.1 == k) with
      | true => simp
      | false => simp
    | false =>
      rw [show (if (false = true) then objDelete m p.1 else m) = m from if_neg (by simp)]
      have hany : (p :: rest).any (fun kv => kv.1 == k && kv.2 == DELETE_SENTINEL) =
          rest.any (fun kv => kv.1 == k && kv.2 == DELETE_SENTINEL) := by
        simp only [List.any_cons, hd, Bool.and_false, Bool.false_or]
      rw [hany]

/-- With unique keys, the entry found for key `k` is the only one: lookup
returns its value. -/
theorem objGet_unique :
    ∀ (patch : ObjMap) (k : String) (x : String × JVal),
      (patch.map Prod.fst).Nodup → x ∈ patch → (x.1 == k) = true →
      objGet patch k = some x.2 := by
  intro patch
  induction patch with
  | nil => intro k x _ hx _; cases hx
  | cons a rest ih =>
    intro k x hnd hx hk
    have hnotmem : a.1 ∉ rest.map Prod.fst := (List.nodup_cons.mp (by simpa using hnd)).1
    rcases List.mem_cons.mp hx with hxa | hxr
    · subst hxa
      rw [objGet_cons, if_pos hk]
    · have hak : (a.1 == k) = false := by
        cases hak : (a.1 == k) with
        | false => rfl
        | true =>
          have h1 : a.1 = k := eq_of_beq hak
          have h2 : x.1 = k := eq_of_beq hk
          exact absurd (show a.1 ∈ rest.map Prod.fst by
            rw [h1, ← h2]; exact List.mem_map_of_mem Prod.fst hxr) hnotmem
      rw [objGet_cons, if_neg (by simp [hak])]
      exact ih k x (List.nodup_cons.mp (by simpa using hnd)).2 hxr hk

/-- Pointwise description of one structured-context patch application. -/
theorem objGet_applyPatch (cur patch : ObjMap) (k : String)
    (hnd : (patch.map Prod.fst).Nodup) :
    objGet (applyPatch cur patch) k =
      match objGet patch k with
      | some v => if v == DELETE_SENTINEL then none else some v
      | none => objGet cur k := by
  unfold applyPatch
  rw [objGet_applyDeletes, objGet_shallowMerge patch cur k hnd]
  cases hg : objGet patch k with
  | none =>
    have hany : patch.any (fun kv => kv.1 == k && kv.2 == DELETE_SENTINEL) = false := by
      cases hany : patch.any (fun kv => kv.1 == k && kv.2 == DELETE_SENTINEL) with
      | false => rfl
      | true =>
        obtain ⟨x, hx, hxx⟩ := List.any_eq_true.mp hany
        have hxk : (x.1 == k) = true := by
          cases h1 : (x.1 == k) <;> simp [h1] at hxx ⊢
        rw [objGet_unique patch k x hnd hx hxk] at hg
        cases hg
    rw [hany]
    simp
  | some v =>
    have hfind : ∃ y, y ∈ patch ∧ (y.1 == k) = true ∧ y.2 = v := by
      unfold objGet at hg
      cases hf : List.find? (fun p => p.1 == k) patch with
      | none => rw [hf] at hg; cases hg
      | some y =>
        rw [hf] at hg
        have h2 := List.find?_some hf
        exact ⟨y, List.mem_of_find?_eq_some hf, by simpa using h2, by simpa using hg⟩
    obtain ⟨y, hymem, hyk, hyv⟩ := hfind
    by_cases hv : v == DELETE_SENTINEL
    · have hany : patch.any (fun kv => kv.1 == k && kv.2 == DELETE_SENTINEL) = true :=
        List.any_eq_true.mpr ⟨y, hymem, by simp [hyk, hyv, eq_of_beq hv]⟩
      rw [hany]
      simp [hv]
    · have hany : patch.any (fun kv => kv.1 == k && kv.2 == DELETE_SENTINEL) = false := by
        cases hany : patch.any (fun kv => kv.1 == k && kv.2 == DELETE_SENTINEL) with
        | false => rfl
        | true =>
          obtain ⟨x, hx, hxx⟩ := List.any_eq_true.mp hany
          have hxk : (x.1 == k) = true := by
            cases h1 : (x.1 == k) <;> simp [h1] at hxx ⊢
          have hxd : x.2 = DELETE_SENTINEL := by
            cases h2 : (x.2 == DELETE_SENTINEL) with
            | false => simp [h2, hxk] at hxx
            | true => exact eq_of_beq h2
          rw [objGet_unique patch k x hnd hx hxk] at hg
          have : v = DELETE_SENTINEL := by
            rw [hxd] at hg
            exact (Option.some_inj.mp hg).symm
          rw [this] at hv
          simp at hv
      rw [hany]
      simp [hv]

/-- C4: a structured-context patch shallow-merges the patch into the
current value and then removes every key whose patch value is the sentinel
`"__DELETE__"` — pointwise, a patched key yields its patch value unless it
is the sentinel (then it is absent), and unpatched keys keep their current
value; each update appends exactly one history entry recording the previous
version, the new version, and the patch; and the concrete chain `{}` +
`{a:1}` + `{b:2}` + `{a:"__DELETE__"}` produces `{a:1,b:2}` then `{b:2}`
with three history entries. -/
theorem updateStructuredContext_spec (st : ContextState) (patch : ObjMap)
    (k : String) :
    ((patch.map Prod.fst).Nodup →
      objGet (updateStructuredContext st patch).context k =
        match objGet patch k with
        | some v => if v == DELETE_SENTINEL then none else some v
        | none => objGet st.context k) ∧
    (updateStructuredContext st patch).history =
      st.history ++ [⟨st.context, applyPatch st.context patch, patch⟩] ∧
    ctxState2.context = [("a", JVal.n 1), ("b", JVal.n 2)] ∧
    ctxState3.context = [("b", JVal.n 2)] ∧
    ctxState3.history =
      [⟨[], [("a", JVal.n 1)], [("a", JVal.n 1)]⟩,
       ⟨[("a", JVal.n 1)], [("a", JVal.n 1), ("b", JVal.n 2)], [("b", JVal.n 2)]⟩,
       ⟨[("a", JVal.n 1), ("b", JVal.n 2)], [("b", JVal.n 2)],
        [("a", JVal.s "__DELETE__")]⟩] := by
  exact ⟨fun hnd => objGet_applyPatch st.context patch k hnd, rfl,
    by decide, by decide, by decide⟩

/-- Witness for C4: deleting key `a` from `{a:1,b:2}` via the sentinel
leaves `a` absent and `b` reading `2`. -/
theorem updateStructuredContext_spec_witness :
    objGet (updateStructuredContext ctxState2 [("a", JVal.s "__DELETE__")]).context "a" =
      none ∧
    objGet (updateStructuredContext ctxState2 [("a", JVal.s "__DELETE__")]).context "b" =
      some (JVal.n 2) := by
  constructor
  · have h := (updateStructuredContext_spec ctxState2 [("a", JVal.s "__DELETE__")] "a").1
      (by decide)
    rw [h]
    decide
  · have h := (updateStructuredContext_spec ctxState2 [("a", JVal.s "__DELETE__")] "b").1
      (by decide)
    rw [h]
    decide

/-- The direction predicate, evaluated per direction. -/
theorem directionFilterKeep_eval (entityId : String) (hit : KnowledgeLinkHit) :
    (directionFilterKeep entityId LinkDirection.outgoing hit = true ↔
      hit.sourceId = entityId) ∧
    (directionFilterKeep entityId LinkDirection.incoming hit = true ↔
      hit.targetId = entityId) ∧
    (directionFilterKeep entityId LinkDirection.both hit = true ↔
      (hit.sourceId = entityId ∨ hit.targetId = entityId)) := by
  by_cases hs : hit.sourceId = entityId <;> by_cases ht : hit.targetId = entityId <;>
    simp [directionFilterKeep, hs, ht]

/-- C9: the client-side direction filter of `getKnowledgeLinks` keeps a
fetched link under `outgoing` iff its `sourceId` equals the entity, under
`incoming` iff its `targetId` equals the entity, and under `both` iff
either holds. -/
theorem getKnowledgeLinks_direction_spec (allLinks : List KnowledgeLinkHit)
    (l : KnowledgeLinkHit) (entityId : String) (hl : l ∈ allLinks) :
    (l ∈ getKnowledgeLinksFilter allLinks entityId LinkDirection.outgoing ↔
      l.sourceId = entityId) ∧
    (l ∈ getKnowledgeLinksFilter allLinks entityId LinkDirection.incoming ↔
      l.targetId = entityId) ∧
    (l ∈ getKnowledgeLinksFilter allLinks entityId LinkDirection.both ↔
      (l.sourceId = entityId ∨ l.targetId = entityId)) := by
  have he := directionFilterKeep_eval entityId l
  unfold getKnowledgeLinksFilter
  refine ⟨?_, ?_, ?_⟩
  · rw [List.mem_filter, ← he.1]
    simp [hl]
  · rw [List.mem_filter, ← he.2.1]
    simp [hl]
  · rw [List.mem_filter, ← he.2.2]
    simp [hl]

/-- Witness for C9: the link `A → B` is returned for `(A, outgoing)` and
`(B, incoming)` but not for `(A, incoming)`. -/
theorem getKnowledgeLinks_direction_witness :
    linkAB ∈ getKnowledgeLinksFilter [linkAB] "A" LinkDirection.outgoing ∧
    linkAB ∈ getKnowledgeLinksFilter [linkAB] "B" LinkDirection.incoming ∧
    linkAB ∉ getKnowledgeLinksFilter [linkAB] "A" LinkDirection.incoming := by
  refine ⟨?_, ?_, ?_⟩
  · exact (getKnowledgeLinks_direction_spec [linkAB] linkAB "A" (by simp)).1.mpr (by decide)
  · exact (getKnowledgeLinks_direction_spec [linkAB] linkAB "B" (by simp)).2.1.mpr (by decide)
  · intro hmem
    have h := (getKnowledgeLinks_direction_spec [linkAB] linkAB "A" (by simp)).2.1.mp hmem
    exact absurd h (by decide)

/-- When every element maps to a success, `mapRes` succeeds with the mapped
results in input order. -/
theorem mapRes_all_ok {β γ : Type} (f : β → Res γ) (g : β → γ) :
    ∀ l : List β, (∀ b ∈ l, f b = Res.ok (g b)) → mapRes f l = Res.ok (l.map g) := by
  intro l
  induction l with
  | nil => intro _; rfl
  | cons b l ih =>
    intro h
    have hb := h b (by simp)
    have hl := ih (fun x hx => h x (by simp [hx]))
    simp [mapRes, hb, hl]

/-- If any element maps to a failure, `mapRes` fails. -/
theorem mapRes_err_of_mem {β γ : Type} (f : β → Res γ) :
    ∀ (l : List β) (q : β) (e : String), q ∈ l → f q = Res.err e →
      ∃ e2, mapRes f l = Res.err e2 := by
  intro l
  induction l with
  | nil => intro q e hq _; cases hq
  | cons b l ih =>
    intro q e hq hfq
    rcases List.mem_cons.mp hq with hqb | hql
    · subst hqb
      exact ⟨e, by simp [mapRes, hfq]⟩
    · cases hb : f b with
      | err e3 => exact ⟨e3, by simp [mapRes, hb]⟩
      | ok c =>
        obtain ⟨e2, h2⟩ := ih q e hql hfq
        exact ⟨e2, by simp [mapRes, hb, h2]⟩

/-- C8: for a non-empty query list, `batchQueryMemory` returns one empty
result list per query (instead of throwing) when initialization fails or
when any per-query search fails; and when everything succeeds it returns
one result list per query, in input order. -/
theorem batchQueryMemory_spec {Q R : Type} (init : Res String)
    (search : String → Q → Res (List R)) (queries : List Q) (coll : String)
    (f : Q → List R) :
    (queries ≠ [] → ∀ e, init = Res.err e →
      batchQueryMemory init search queries =
        Res.ok (queries.map (fun _ => []))) ∧
    (queries ≠ [] → init = Res.ok coll →
      ∀ q ∈ queries, ∀ e, search coll q = Res.err e →
      batchQueryMemory init search queries =
        Res.ok (queries.map (fun _ => []))) ∧
    (queries ≠ [] → init = Res.ok coll →
      (∀ q ∈ queries, search coll q = Res.ok (f q)) →
      batchQueryMemory init search queries = Res.ok (queries.map f)) := by
  refine ⟨?_, ?_, ?_⟩
  · intro hne e hinit
    unfold batchQueryMemory
    rw [if_neg (by simpa using fun h => hne (List.length_eq_zero.mp h)), hinit]
  · intro hne hinit q hq e hs
    unfold batchQueryMemory
    rw [if_neg (by simpa using fun h => hne (List.length_eq_zero.mp h)), hinit]
    obtain ⟨e2, h2⟩ := mapRes_err_of_mem (search coll) queries q e hq hs
    dsimp only
    rw [h2]
  · intro hne hinit hall
    unfold batchQueryMemory
    rw [if_neg (by simpa using fun h => hne (List.length_eq_zero.mp h)), hinit]
    dsimp only
    rw [mapRes_all_ok (search coll) f queries hall]

/-- Witness for C8: three queries with a failing store yield three empty
lists; one failing search also yields three empty lists; a healthy store
yields the three per-query results in order. -/
theorem batchQueryMemory_spec_witness :
    batchQueryMemory (Res.err "down") (fun _ (_ : Nat) => Res.ok [(0 : Nat)])
      [1, 2, 3] = Res.ok [[], [], []] ∧
    batchQueryMemory (Res.ok "coll")
      (fun _ (q : Nat) => if q = 2 then Res.err "boom" else Res.ok [q])
      [1, 2, 3] = Res.ok [[], [], []] ∧
    batchQueryMemory (Res.ok "coll") (fun _ (q : Nat) => Res.ok [q * 10])
      [1, 2, 3] = Res.ok [[10], [20], [30]] := by
  refine ⟨?_, ?_, ?_⟩
  · have h := (batchQueryMemory_spec (Res.err "down")
      (fun _ (_ : Nat) => Res.ok [(0 : Nat)]) [1, 2, 3] "coll" (fun _ => [])).1
      (by decide) "down" rfl
    rw [h]
    decide
  · have h := (batchQueryMemory_spec (Res.ok "coll")
      (fun _ (q : Nat) => if q = 2 then Res.err "boom" else Res.ok [q])
      [1, 2, 3] "coll" (fun _ => [])).2.1
      (by decide) rfl 2 (by decide) "boom" (by decide)
    rw [h]
    decide
  · have h := (batchQueryMemory_spec (Res.ok "coll")
      (fun _ (q : Nat) => Res.ok [q * 10]) [1, 2, 3] "coll"
      (fun q => [q * 10])).2.2 (by decide) rfl (by decide)
    rw [h]
    decide

end MemoryQdrant
